import Mathlib

/-!
# Verification of the hbemfun boundary-element integration core

Shallow embedding of the integration routines of the hbemfun repository
(`bemintreg3ddiag.cpp`, `bemintsing2d` and the `Integrate*` drivers of the
mex entry file) and proofs of the frozen specification claims.

Scalars are modelled as rationals: every arithmetic operation appearing in
the embedded code paths (addition, subtraction, multiplication, comparison,
absolute value) is exact, so `ℚ` is a faithful carrier for the claims at
hand, which never depend on rounding.  Kernel evaluations
(`greeneval2d/3d` + `greenrotate2d/3d`, whose sources are outside this
repository) are abstracted as oracle functions supplied in the parameter
records; the claims quantify over arbitrary kernel values.

Buffer mutation (`X[idx] += v` / `X[idx] -= v`) is embedded as a list of
accumulation events in program order; the buffer semantics is the left fold
of those events over the initial buffers.  One source statement yields one
event, so the event list is a direct transcription of the loop nests.
-/

namespace Hbemfun

/-- The four output buffers of the integrators (real/imaginary parts of the
displacement matrix U and the traction matrix T). -/
inductive Buf where
  | URe | UIm | TRe | TIm
deriving DecidableEq

/-- One accumulation statement `buf[idx] += val` (a subtraction statement
`buf[idx] -= v` is the event with `val = -v`).  The index is an integer
because the subset-selection path computes it from the signed `inddiag`
array. -/
structure Event where
  buf : Buf
  idx : Int
  val : ℚ
deriving DecidableEq

/-- Buffer state: contents of each of the four buffers at every index. -/
def Buffers : Type := Buf → Int → ℚ

/-- Apply one accumulation event to the buffer state. -/
def applyEvent (b : Buffers) (e : Event) : Buffers :=
  fun buf idx => if buf = e.buf ∧ idx = e.idx then b buf idx + e.val else b buf idx

/-- Apply a list of accumulation events in program order. -/
def applyEvents (b : Buffers) (es : List Event) : Buffers :=
  es.foldl applyEvent b

/-- The `sign` helper of `bemintsing2d.cpp` / `bemintreg3ddiag.cpp`:
`if (a==0.0) return 1.0; else return (a>0.0 ? 1.0 : -1.0);` -/
def sign (a : ℚ) : ℚ :=
  if a = 0 then 1 else if a > 0 then 1 else -1

/-- Inputs of `bemintreg3ddiag` (one element `iElt`, all collocation points).
Flattened C arrays become index functions; the per-element scalars
`nXi`, `nEltColl[iElt]` become plain fields (`nXiE`, `nEltCollE`).  The
composition `greeneval3d` + `greenrotate3d` is abstracted by the oracles
`UXiRe .. TXi0Im : collocation point → quadrature point → flat component
index (9*iGrSet+k) → value`, exactly the arrays the rotated kernel values
are stored into in the source. -/
structure DiagP where
  nColl : Nat
  nDof : Nat
  nGrSet : Nat
  nXiE : Nat
  nEltCollE : Nat
  ms : Nat
  ns : Nat
  RegularColl : Nat → Nat
  EltCollIndex : Nat → Nat
  H : Nat → ℚ
  Jac : Nat → ℚ
  M : Nat → ℚ
  UXiRe : Nat → Nat → Nat → ℚ
  UXiIm : Nat → Nat → Nat → ℚ
  TXiRe : Nat → Nat → Nat → ℚ
  TXiIm : Nat → Nat → Nat → ℚ
  TXi0Re : Nat → Nat → Nat → ℚ
  TXi0Im : Nat → Nat → Nat → ℚ
  ugCmplx : Bool
  tgCmplx : Bool
  tg0Cmplx : Bool
  UmatOut : Bool
  TmatOut : Bool
  Nuniquescolli : Nat
  uniquescolli : Nat → Nat
  nuniquescolli : Nat → Nat
  uniquescolliind : Nat → Nat
  scompi : Nat → Nat
  scompj : Nat → Nat
  scollj : Nat → Nat
  InListuniquecollj : Nat → Bool
  blockdiag : Nat → Bool
  inddiag : Nat → Int

/-- A 3×3 block of nine accumulation statements.  The source writes the
nine components as explicit statements ordered `(row+0,col+0), (row+0,col+1),
(row+0,col+2), (row+1,col+0), …` with kernel component `3*i+j` for row
offset `i` and column offset `j`; the two loops below generate the events in
exactly that order. -/
def block3x3 (buf : Buf) (idx : Nat → Nat → Int) (v : Nat → Nat → ℚ) : List Event :=
  (List.range 3).flatMap fun i => (List.range 3).map fun j => ⟨buf, idx i j, v i j⟩

/-- Loop body of the dense (`s` empty) branch of `bemintreg3ddiag` for fixed
`(iColl, iXi, iEltColl, iGrSet)` (source lines 481–558): ordinary U and T
accumulation at `(rowBeg+i, colBeg+j)` plus the subtraction of the static
singular part `TXi0` on the diagonal block `(rowBeg+i, rowBeg+j)`. -/
def denseCell (p : DiagP) (iColl iXi iEltColl iGrSet : Nat) : List Event :=
  let sumutil : ℚ := p.H iXi * p.M (p.nEltCollE * iXi + iEltColl) * p.Jac iXi
  let rowBeg : Nat := 3 * iColl
  let colBeg : Nat := 3 * p.EltCollIndex iEltColl
  let ind0 : Nat := p.nDof * p.nDof * iGrSet
  block3x3 .URe (fun i j => (ind0 + p.nDof * (colBeg + j) + (rowBeg + i) : Nat))
    (fun i j => sumutil * p.UXiRe iColl iXi (9 * iGrSet + (3 * i + j)))
  ++ (if p.ugCmplx then
        block3x3 .UIm (fun i j => (ind0 + p.nDof * (colBeg + j) + (rowBeg + i) : Nat))
          (fun i j => sumutil * p.UXiIm iColl iXi (9 * iGrSet + (3 * i + j)))
      else [])
  ++ (if p.TmatOut then
        block3x3 .TRe (fun i j => (ind0 + p.nDof * (colBeg + j) + (rowBeg + i) : Nat))
          (fun i j => sumutil * p.TXiRe iColl iXi (9 * iGrSet + (3 * i + j)))
        ++ (if p.tgCmplx then
              block3x3 .TIm (fun i j => (ind0 + p.nDof * (colBeg + j) + (rowBeg + i) : Nat))
                (fun i j => sumutil * p.TXiIm iColl iXi (9 * iGrSet + (3 * i + j)))
            else [])
        ++ block3x3 .TRe (fun i j => (ind0 + p.nDof * (rowBeg + j) + (rowBeg + i) : Nat))
          (fun i j => -(sumutil * p.TXi0Re iColl iXi (9 * iGrSet + (3 * i + j))))
        ++ (if p.tgCmplx then
              block3x3 .TIm (fun i j => (ind0 + p.nDof * (rowBeg + j) + (rowBeg + i) : Nat))
                (fun i j => -(sumutil * p.TXi0Im iColl iXi (9 * iGrSet + (3 * i + j))))
            else [])
      else [])

/-- Dense (`s` empty) branch of `bemintreg3ddiag` (source lines 450–564):
for every collocation point classified regular, for every quadrature point,
for every element collocation shape function, for every Green-set, run the
accumulation cell. -/
def denseEvents (p : DiagP) : List Event :=
  (List.range p.nColl).flatMap fun iColl =>
    if p.RegularColl iColl = 1 then
      (List.range p.nXiE).flatMap fun iXi =>
        (List.range p.nEltCollE).flatMap fun iEltColl =>
          (List.range p.nGrSet).flatMap fun iGrSet =>
            denseCell p iColl iXi iEltColl iGrSet
    else []

/-- `blockdiag` branch of the subset-selection path of `bemintreg3ddiag`
(source lines 295–327) for fixed `(iuniquescolli, iXi, iEltColl)`: the nine
`TXi0` components are subtracted through `inddiag` without any sentinel
check. -/
def blockdiagCell (p : DiagP) (iu iXi iEltColl : Nat) : List Event :=
  let sumutil : ℚ := p.H iXi * p.M (p.nEltCollE * iXi + iEltColl) * p.Jac iXi
  (List.range p.nGrSet).flatMap fun iGrSet =>
    let ind0 : Nat := p.ms * p.ns * iGrSet
    ((List.range 9).map fun k =>
      Event.mk .TRe ((ind0 : Int) + p.inddiag (9 * iu + k))
        (-(sumutil * p.TXi0Re (p.uniquescolli iu) iXi (9 * iGrSet + k))))
    ++ (if p.tgCmplx then
          (List.range 9).map fun k =>
            Event.mk .TIm ((ind0 : Int) + p.inddiag (9 * iu + k))
              (-(sumutil * p.TXi0Im (p.uniquescolli iu) iXi (9 * iGrSet + k)))
        else [])

/-- Non-`blockdiag` branch of the subset-selection path of
`bemintreg3ddiag` (source lines 332–437) for fixed
`(iuniquescolli, iXi, iEltColl)`; `cumul` is the running value of
`nuniquescollicumul`.  A contribution is written only when the target slot
mapping `inddiag[9*iu+3*scompi+scompj]` differs from the sentinel `-1`. -/
def nonBlockCell (p : DiagP) (iu cumul iXi iEltColl : Nat) : List Event :=
  if p.InListuniquecollj (p.EltCollIndex iEltColl) = true then
    let sumutil : ℚ := p.H iXi * p.M (p.nEltCollE * iXi + iEltColl) * p.Jac iXi
    (List.range (p.nuniquescolli iu)).flatMap fun iind =>
      if p.scollj (p.uniquescolliind (cumul + iind)) = p.EltCollIndex iEltColl then
        (List.range p.nGrSet).flatMap fun iGrSet =>
          let ind0 : Nat := p.ms * p.ns * iGrSet
          let c : Nat := 3 * p.scompi (p.uniquescolliind (cumul + iind))
            + p.scompj (p.uniquescolliind (cumul + iind))
          if p.inddiag (9 * iu + c) ≠ -1 then
            Event.mk .TRe ((ind0 : Int) + p.inddiag (9 * iu + c))
              (-(sumutil * p.TXi0Re (p.uniquescolli iu) iXi (9 * iGrSet + c)))
            :: (if p.tgCmplx then
                  [Event.mk .TIm ((ind0 : Int) + p.inddiag (9 * iu + c))
                    (-(sumutil * p.TXi0Im (p.uniquescolli iu) iXi (9 * iGrSet + c)))]
                else [])
          else []
      else []
  else []

/-- Subset-selection (`spassed`) branch of `bemintreg3ddiag` (source lines
232–446).  `nuniquescollicumul` is incremented by `nuniquescolli[iu]` at the
end of every outer iteration, so at iteration `iu` it equals the sum over
the previous iterations. -/
def subsetEvents (p : DiagP) : List Event :=
  (List.range p.Nuniquescolli).flatMap fun iu =>
    let cumul : Nat := ((List.range iu).map p.nuniquescolli).sum
    if p.RegularColl (p.uniquescolli iu) = 1 then
      (List.range p.nXiE).flatMap fun iXi =>
        (List.range p.nEltCollE).flatMap fun iEltColl =>
          if p.blockdiag iu = true then blockdiagCell p iu iXi iEltColl
          else nonBlockCell p iu cumul iXi iEltColl
    else []

/-- Number of DOFs per collocation point in `bemintsing2d`, from the number
of displacement kernel components: `if (nugComp==1) nColDof=1; if
(nugComp==4) nColDof=2; if (nugComp==9) nColDof=3;` (any other value leaves
the variable unset in the source; `0` models that junk case). -/
def nColDofOf (nugComp : Nat) : Nat :=
  if nugComp = 1 then 1 else if nugComp = 4 then 2 else if nugComp = 9 then 3 else 0

/-- Inputs of `bemintsing2d` (one element, one collocation point `iColl`).
`Coll`, `EltNod`, `Nsh` (the geometry shape functions `N`), `M`, `H`, `Jac`
are the flattened arrays of the source.  `greeneval2d` is abstracted by the
oracles `UgrRe/UgrIm : (xiR, xiZ, Xsgn) → flat component index
(nugComp*iGrSet+c) → value`, and the composition with `greenrotate2d`
(which also reads `normal[iXi]`) by `TXiRe/…/TXi0Im : (iXi, xiR, xiZ, Xsgn)
→ flat component index (nColDof²*iGrSet+c) → value`. -/
structure Sing2dP where
  nEltDivSing : Nat
  nGaussSing : Nat
  nEltNod : Nat
  nEltCollE : Nat
  nColl : Nat
  iColl : Nat
  nDof : Nat
  nGrSet : Nat
  nugComp : Nat
  Coll : Nat → ℚ
  EltNod : Nat → ℚ
  Nsh : Nat → ℚ
  M : Nat → ℚ
  H : Nat → ℚ
  Jac : Nat → ℚ
  EltCollIndex : Nat → Nat
  UgrRe : ℚ → ℚ → ℚ → Nat → ℚ
  UgrIm : ℚ → ℚ → ℚ → Nat → ℚ
  TXiRe : Nat → ℚ → ℚ → ℚ → Nat → ℚ
  TXiIm : Nat → ℚ → ℚ → ℚ → Nat → ℚ
  TXi0Re : Nat → ℚ → ℚ → ℚ → Nat → ℚ
  TXi0Im : Nat → ℚ → ℚ → ℚ → Nat → ℚ
  ugCmplx : Bool
  tgCmplx : Bool
  tg0Cmplx : Bool
  TmatOut : Bool

/-- `const unsigned int nXi=nEltDivSing*nGaussSing;` — the singular
quadrature rule: `nEltDivSing` subdivisions × `nGaussSing` Gauss points. -/
def sing2dNXi (p : Sing2dP) : Nat := p.nEltDivSing * p.nGaussSing

/-- Interpolated x-coordinate of quadrature point `iXi`:
`xiCart[2*iXi+0] += N[nEltNod*iXi+iEltNod]*EltNod[0*nEltNod+iEltNod]`. -/
def xiCartX (p : Sing2dP) (iXi : Nat) : ℚ :=
  ((List.range p.nEltNod).map fun iEltNod =>
    p.Nsh (p.nEltNod * iXi + iEltNod) * p.EltNod (0 * p.nEltNod + iEltNod)).sum

/-- Interpolated z-coordinate of quadrature point `iXi`:
`xiCart[2*iXi+1] += N[nEltNod*iXi+iEltNod]*EltNod[2*nEltNod+iEltNod]`. -/
def xiCartZ (p : Sing2dP) (iXi : Nat) : ℚ :=
  ((List.range p.nEltNod).map fun iEltNod =>
    p.Nsh (p.nEltNod * iXi + iEltNod) * p.EltNod (2 * p.nEltNod + iEltNod)).sum

/-- `const double Xdiff=xiCart[2*iXi+0]-Coll[2*nColl+iColl];` -/
def Xdiff (p : Sing2dP) (iXi : Nat) : ℚ := xiCartX p iXi - p.Coll (2 * p.nColl + p.iColl)

/-- `const double Zdiff=xiCart[2*iXi+1]-Coll[4*nColl+iColl];` -/
def Zdiff (p : Sing2dP) (iXi : Nat) : ℚ := xiCartZ p iXi - p.Coll (4 * p.nColl + p.iColl)

/-- A `d×d` block of `d²` accumulation statements, row offset `i`, column
offset `j`, in source statement order (kernel component `d*i+j`). -/
def blockSq (d : Nat) (buf : Buf) (idx : Nat → Nat → Int) (v : Nat → Nat → ℚ) : List Event :=
  (List.range d).flatMap fun i => (List.range d).map fun j => ⟨buf, idx i j, v i j⟩

/-- Accumulation body of `bemintsing2d` for quadrature point `iXi` given the
kernel arguments `(xiR, xiZ, xsgn)` (source lines 187–322).  The three
branches `nugComp == 1 / 4 / 9` of the source are the same `d×d` block
pattern for `d = nColDof` with kernel component `nugComp*iGrSet + d*i+j`;
they are transcribed here once, parametrized by `d`. -/
def sing2dCellAt (p : Sing2dP) (iXi : Nat) (xiR xiZ xsgn : ℚ) : List Event :=
  let d : Nat := nColDofOf p.nugComp
  (List.range p.nEltCollE).flatMap fun iEltColl =>
    let sumutil : ℚ := p.H iXi * p.M (p.nEltCollE * iXi + iEltColl) * p.Jac iXi
    let rowBeg : Nat := d * p.iColl
    let colBeg : Nat := d * p.EltCollIndex iEltColl
    (List.range p.nGrSet).flatMap fun iGrSet =>
      let ind0 : Nat := p.nDof * p.nDof * iGrSet
      blockSq d .URe (fun i j => (ind0 + p.nDof * (colBeg + j) + (rowBeg + i) : Nat))
        (fun i j => sumutil * p.UgrRe xiR xiZ xsgn (p.nugComp * iGrSet + (d * i + j)))
      ++ (if p.ugCmplx = true then
            blockSq d .UIm (fun i j => (ind0 + p.nDof * (colBeg + j) + (rowBeg + i) : Nat))
              (fun i j => sumutil * p.UgrIm xiR xiZ xsgn (p.nugComp * iGrSet + (d * i + j)))
          else [])
      ++ (if p.TmatOut = true then
            blockSq d .TRe (fun i j => (ind0 + p.nDof * (colBeg + j) + (rowBeg + i) : Nat))
              (fun i j => sumutil * p.TXiRe iXi xiR xiZ xsgn (p.nugComp * iGrSet + (d * i + j)))
            ++ (if p.tgCmplx = true then
                  blockSq d .TIm (fun i j => (ind0 + p.nDof * (colBeg + j) + (rowBeg + i) : Nat))
                    (fun i j => sumutil * p.TXiIm iXi xiR xiZ xsgn (p.nugComp * iGrSet + (d * i + j)))
                else [])
            ++ blockSq d .TRe (fun i j => (ind0 + p.nDof * (rowBeg + j) + (rowBeg + i) : Nat))
              (fun i j => -(sumutil * p.TXi0Re iXi xiR xiZ xsgn (p.nugComp * iGrSet + (d * i + j))))
            ++ (if p.tg0Cmplx = true then
                  blockSq d .TIm (fun i j => (ind0 + p.nDof * (rowBeg + j) + (rowBeg + i) : Nat))
                    (fun i j => -(sumutil * p.TXi0Im iXi xiR xiZ xsgn (p.nugComp * iGrSet + (d * i + j))))
                else [])
          else [])

/-- One iteration of the quadrature loop of `bemintsing2d` (source lines
168–184): compute the offset, raise the degenerate-geometry error if the
quadrature point coincides with the collocation point, otherwise evaluate
the kernel at the signed radial coordinate `(xiR = |Δx|, Δz, sign Δx)` and
accumulate. -/
def sing2dStep (p : Sing2dP) (acc : List Event) (iXi : Nat) : Except String (List Event) :=
  let xiR : ℚ := |Xdiff p iXi|
  let xiZ : ℚ := Zdiff p iXi
  let xsgn : ℚ := sign (Xdiff p iXi)
  if xiR = 0 ∧ xiZ = 0 then
    Except.error "An integration point coincides with the collocation point for singular integration."
  else
    Except.ok (acc ++ sing2dCellAt p iXi xiR xiZ xsgn)

/-- The quadrature loop of `bemintsing2d`: iterate the singular rule's
`nEltDivSing*nGaussSing` sample points in order, accumulating events, with
the degenerate-geometry error aborting the whole integration. -/
def sing2dRun (p : Sing2dP) : Except String (List Event) :=
  (List.range (sing2dNXi p)).foldlM (sing2dStep p) []

/-- Strict-increase validation loop of `IntegrateGreenUser` for one input
grid: `for i=1; i<n; i++  if (!(a[i-1]<a[i])) throw(err);`.  (Error
messages are the source's, with the quoting of the argument name
dropped.) -/
def monoCheck (err : String) (n : Nat) (a : Nat → ℚ) : Except String Unit :=
  (List.range' 1 (n - 1)).foldlM
    (fun _ i => if ¬ a (i - 1) < a i then Except.error err else Except.ok ()) ()

/-- The three grid validations of `IntegrateGreenUser` (source lines
269–294), in source order: `zs`, then `r`, then `z`. -/
def userGridChecks (nzs : Nat) (zs : Nat → ℚ) (nr : Nat) (r : Nat → ℚ)
    (nz : Nat) (z : Nat → ℚ) : Except String Unit := do
  monoCheck "Input argument zs must be monotonically increasing." nzs zs
  monoCheck "Input argument r must be monotonically increasing." nr r
  monoCheck "Input argument z must be monotonically increasing." nz z

/-- Output-matrix leading dimensions chosen by `IntegrateGreenUser` (source
lines 455–459): `MatDimU[0]=(s==0 ? nDof : ms); MatDimU[1]=(s==0 ? nDof :
ns); if (UmatOut==false){MatDimU[0]=0; MatDimU[1]=0;}`. -/
def userMatDimU (sIsNull : Bool) (nDof ms ns : Nat) (UmatOut : Bool) : Nat × Nat :=
  if UmatOut = false then (0, 0)
  else ((if sIsNull = true then nDof else ms), (if sIsNull = true then nDof else ns))

/-- Table-load phase of `IntegrateGreenUser`: validate the lookup grids,
then (and only then) shape the output buffers.  An invalid grid aborts
before any output exists. -/
def integrateGreenUserLoad (nzs : Nat) (zs : Nat → ℚ) (nr : Nat) (r : Nat → ℚ)
    (nz : Nat) (z : Nat → ℚ) (sIsNull : Bool) (nDof ms ns : Nat) (UmatOut : Bool) :
    Except String (Nat × Nat) := do
  userGridChecks nzs zs nr r nz z
  Except.ok (userMatDimU sIsNull nDof ms ns UmatOut)

/-- Output-matrix leading dimensions chosen by `IntegrateFsGreenf` (source
lines 632–637): `nDof=nColDof*nTotalColl; MatDim[0]=(s==0 ? nDof : ms);
MatDim[1]=(s==0 ? nDof : ns);`. -/
def fsGreenfMatDim (sIsNull : Bool) (nColDof nTotalColl ms ns : Nat) : Nat × Nat :=
  let nDof : Nat := nColDof * nTotalColl
  ((if sIsNull = true then nDof else ms), (if sIsNull = true then nDof else ns))

/-- The `(row, col, greenSetIndex) → flat index` mapping the spec names as
the single source of truth for memory layout (column-major: Green-set
stride `nRow*nCol`, column stride `nRow`). -/
def specFlatIndex (nRow nCol g c r : Nat) : Nat := nRow * nCol * g + nRow * c + r

/-- Storage class of a MATLAB output array. -/
inductive MxStorage where
  | real | cmplx
deriving DecidableEq

/-- `mxCreateNumericArray(…, (c ? mxCOMPLEX : mxREAL))`. -/
def allocStorage (c : Bool) : MxStorage := if c = true then .cmplx else .real

/-- `IntegrateGreenUser`, U matrix storage flag (source lines 464–465):
`bool uCmplx=false; if (ugCmplx || probPeriodic){uCmplx=true;}`. -/
def userUCmplx (ugCmplx probPeriodic : Bool) : Bool := ugCmplx || probPeriodic

/-- `IntegrateGreenUser`, T matrix storage flag (source lines 475–476). -/
def userTCmplx (tgCmplx probPeriodic : Bool) : Bool := tgCmplx || probPeriodic

/-- Storage of the U output of `IntegrateGreenUser` (source line 468). -/
def userUAlloc (ugCmplx probPeriodic : Bool) : MxStorage :=
  allocStorage (userUCmplx ugCmplx probPeriodic)

/-- Storage of the T output of `IntegrateGreenUser` (source line 490). -/
def userTAlloc (tgCmplx probPeriodic : Bool) : MxStorage :=
  allocStorage (userTCmplx tgCmplx probPeriodic)

/-- `IntegrateFsGreen3d` fixes `ugCmplx=true` (source line 787). -/
def fsGreen3dUgCmplx : Bool := true

/-- `IntegrateFsGreen3d` fixes `tgCmplx=true` (source line 788). -/
def fsGreen3dTgCmplx : Bool := true

/-- Storage of the U output of `IntegrateFsGreen3d` (source lines 823–826). -/
def fsGreen3dUAlloc (probPeriodic : Bool) : MxStorage :=
  allocStorage (fsGreen3dUgCmplx || probPeriodic)

/-- Storage of the T output of `IntegrateFsGreen3d` (source lines 830–837). -/
def fsGreen3dTAlloc (probPeriodic : Bool) : MxStorage :=
  allocStorage (fsGreen3dTgCmplx || probPeriodic)

/-- §4.5 of the spec, transcribed from its words for one
`(collocation point, element shape function, quadrature point, Green-set)`
tuple: weight `w = quadratureWeight × shapeValue(collocation-local shape
function) × Jacobian`; accumulate `w·U` and `w·T` into `(row+i, col+j)` for
every component pair of the 3×3 DOF block; and subtract `w·T0` into the
diagonal block `(row+i, row+j)` (row = the collocation point's own index
block).  Component pairs are enumerated as `k = 0..8` with row offset `k/3`
and column offset `k%3`; addressing uses `specFlatIndex`.  Imaginary parts
accompany each block when the corresponding kernel is complex. -/
def specRegularCellT (p : DiagP) (iColl iXi iEltColl iGrSet : Nat) : List Event :=
  let w : ℚ := p.H iXi * p.M (p.nEltCollE * iXi + iEltColl) * p.Jac iXi
  let row : Nat := 3 * iColl
  let col : Nat := 3 * p.EltCollIndex iEltColl
  ((List.range 9).map fun k =>
    Event.mk .URe (specFlatIndex p.nDof p.nDof iGrSet (col + k % 3) (row + k / 3) : Nat)
      (w * p.UXiRe iColl iXi (9 * iGrSet + k)))
  ++ (if p.ugCmplx then
        (List.range 9).map fun k =>
          Event.mk .UIm (specFlatIndex p.nDof p.nDof iGrSet (col + k % 3) (row + k / 3) : Nat)
            (w * p.UXiIm iColl iXi (9 * iGrSet + k))
      else [])
  ++ (((List.range 9).map fun k =>
        Event.mk .TRe (specFlatIndex p.nDof p.nDof iGrSet (col + k % 3) (row + k / 3) : Nat)
          (w * p.TXiRe iColl iXi (9 * iGrSet + k)))
      ++ (if p.tgCmplx then
            (List.range 9).map fun k =>
              Event.mk .TIm (specFlatIndex p.nDof p.nDof iGrSet (col + k % 3) (row + k / 3) : Nat)
                (w * p.TXiIm iColl iXi (9 * iGrSet + k))
          else [])
      ++ ((List.range 9).map fun k =>
            Event.mk .TRe (specFlatIndex p.nDof p.nDof iGrSet (row + k % 3) (row + k / 3) : Nat)
              (-(w * p.TXi0Re iColl iXi (9 * iGrSet + k))))
      ++ (if p.tgCmplx then
            (List.range 9).map fun k =>
              Event.mk .TIm (specFlatIndex p.nDof p.nDof iGrSet (row + k % 3) (row + k / 3) : Nat)
                (-(w * p.TXi0Im iColl iXi (9 * iGrSet + k)))
          else []))

/-- A grid of `n` values is strictly increasing: every consecutive pair
satisfies `a[i-1] < a[i]`. -/
def strictlyInc (n : Nat) (a : Nat → ℚ) : Prop :=
  ∀ i, 1 ≤ i → i < n → a (i - 1) < a i

/-- Small concrete instance of `bemintreg3ddiag`'s inputs: one collocation
point (regular), one quadrature point, one element collocation shape
function, one Green-set, unit weights, `TXi0Re ≡ 1`; subset-selection data
with `blockdiag` on and every `inddiag` slot at the sentinel `-1`. -/
def pEx : DiagP where
  nColl := 1
  nDof := 3
  nGrSet := 1
  nXiE := 1
  nEltCollE := 1
  ms := 1
  ns := 1
  RegularColl := fun _ => 1
  EltCollIndex := fun _ => 0
  H := fun _ => 1
  Jac := fun _ => 1
  M := fun _ => 1
  UXiRe := fun _ _ _ => 0
  UXiIm := fun _ _ _ => 0
  TXiRe := fun _ _ _ => 0
  TXiIm := fun _ _ _ => 0
  TXi0Re := fun _ _ _ => 1
  TXi0Im := fun _ _ _ => 0
  ugCmplx := false
  tgCmplx := false
  tg0Cmplx := false
  UmatOut := true
  TmatOut := true
  Nuniquescolli := 1
  uniquescolli := fun _ => 0
  nuniquescolli := fun _ => 0
  uniquescolliind := fun _ => 0
  scompi := fun _ => 0
  scompj := fun _ => 0
  scollj := fun _ => 0
  InListuniquecollj := fun _ => true
  blockdiag := fun _ => true
  inddiag := fun _ => -1

/-- Variant of `pEx` exercising the non-`blockdiag` subset branch: one
selected slot with `inddiag = 0` (present). -/
def pExNB : DiagP :=
  { pEx with
    blockdiag := fun _ => false
    inddiag := fun _ => 0
    nuniquescolli := fun _ => 1 }

/-- Small concrete instance of `bemintsing2d`'s inputs: a single quadrature
point of an empty (`nEltNod = 0`) element, so the interpolated quadrature
point sits at the origin, with the collocation point also at the origin —
the degenerate geometry. -/
def qEx : Sing2dP where
  nEltDivSing := 1
  nGaussSing := 1
  nEltNod := 0
  nEltCollE := 0
  nColl := 1
  iColl := 0
  nDof := 1
  nGrSet := 0
  nugComp := 1
  Coll := fun _ => 0
  EltNod := fun _ => 0
  Nsh := fun _ => 0
  M := fun _ => 0
  H := fun _ => 0
  Jac := fun _ => 0
  EltCollIndex := fun _ => 0
  UgrRe := fun _ _ _ _ => 0
  UgrIm := fun _ _ _ _ => 0
  TXiRe := fun _ _ _ _ _ => 0
  TXiIm := fun _ _ _ _ _ => 0
  TXi0Re := fun _ _ _ _ _ => 0
  TXi0Im := fun _ _ _ _ _ => 0
  ugCmplx := false
  tgCmplx := false
  tg0Cmplx := false
  TmatOut := false

/-- Variant of `qEx` with the collocation point moved away from the
quadrature point (offset `(-1, -1)`). -/
def qExOff : Sing2dP := { qEx with Coll := fun _ => 1 }

/-- Variant of `qEx` with zero horizontal offset but nonzero vertical
offset (`Δx = 0`, `Δz = -1`). -/
def qExZ : Sing2dP := { qEx with Coll := fun k => if k = 4 then 1 else 0 }

/-- Buffers untouched by any event of a list keep their contents. -/
theorem applyEvents_eq_of_buf_notMem (es : List Event) (b : Buffers) (buf : Buf)
    (h : ∀ e ∈ es, e.buf ≠ buf) : applyEvents b es buf = b buf := by
  induction es generalizing b with
  | nil => rfl
  | cons e tl ih =>
    have he : e.buf ≠ buf := h e (List.mem_cons_self e tl)
    have htl : ∀ x ∈ tl, x.buf ≠ buf := fun x hx => h x (List.mem_cons_of_mem e hx)
    have : applyEvent b e buf = b buf := by
      funext idx
      simp only [applyEvent]
      rw [if_neg]
      rintro ⟨h1, -⟩
      exact he h1.symm
    calc applyEvents b (e :: tl) buf = applyEvents (applyEvent b e) tl buf := rfl
      _ = applyEvent b e buf := ih (applyEvent b e) htl
      _ = b buf := this

/-- Membership in a guarded list implies membership in the list. -/
theorem mem_of_mem_ite_nil {α : Type} {c : Prop} [Decidable c] {l : List α} {a : α}
    (h : a ∈ if c then l else []) : a ∈ l := by
  split at h
  · exact h
  · simp at h

/-- Membership in a 3×3 accumulation block. -/
theorem mem_block3x3 {b : Buf} {idx : Nat → Nat → Int} {v : Nat → Nat → ℚ} {e : Event}
    (h : e ∈ block3x3 b idx v) : ∃ i j, i < 3 ∧ j < 3 ∧ e = ⟨b, idx i j, v i j⟩ := by
  simp only [block3x3, List.mem_flatMap, List.mem_map, List.mem_range] at h
  obtain ⟨i, hi, j, hj, rfl⟩ := h
  exact ⟨i, j, hi, hj, rfl⟩

/-- A 3×3 block is the enumeration of its nine components `k = 0..8` with
row offset `k/3` and column offset `k%3`. -/
theorem block3x3_eq_map9 (b : Buf) (idx : Nat → Nat → Int) (v : Nat → Nat → ℚ) :
    block3x3 b idx v =
      (List.range 9).map fun k => ⟨b, idx (k / 3) (k % 3), v (k / 3) (k % 3)⟩ := rfl

/-- The signed radial decomposition: `sign a * |a| = a` for every rational
`a`, including `a = 0` (where `sign` returns `+1`). -/
theorem sign_mul_abs (a : ℚ) : sign a * |a| = a := by
  unfold sign
  rcases lt_trichotomy a 0 with h | h | h
  · rw [if_neg h.ne, if_neg (not_lt.mpr h.le), abs_of_neg h]; ring
  · simp [h]
  · rw [if_neg h.ne', if_pos h, abs_of_pos h, one_mul]

/-- If some quadrature point in the remaining list coincides with the
collocation point, the quadrature fold aborts with the degenerate-geometry
error. -/
theorem sing2dFold_error (p : Sing2dP) (l : List Nat) (acc : List Event)
    (h : ∃ i ∈ l, |Xdiff p i| = 0 ∧ Zdiff p i = 0) :
    l.foldlM (sing2dStep p) acc =
      Except.error "An integration point coincides with the collocation point for singular integration." := by
  induction l generalizing acc with
  | nil => simp at h
  | cons x xs ih =>
    rw [List.foldlM_cons]
    by_cases hx : |Xdiff p x| = 0 ∧ Zdiff p x = 0
    · have hstep : sing2dStep p acc x = Except.error
          "An integration point coincides with the collocation point for singular integration." := by
        simp only [sing2dStep]
        rw [if_pos hx]
      rw [hstep]
      rfl
    · have hstep : sing2dStep p acc x =
          Except.ok (acc ++ sing2dCellAt p x |Xdiff p x| (Zdiff p x) (sign (Xdiff p x))) := by
        simp only [sing2dStep]
        rw [if_neg hx]
      rw [hstep]
      have h2 : ∃ i ∈ xs, |Xdiff p i| = 0 ∧ Zdiff p i = 0 := by
        rcases h with ⟨i, hi, hbad⟩
        rcases List.mem_cons.mp hi with rfl | hmem
        · exact absurd hbad hx
        · exact ⟨i, hmem, hbad⟩
      exact ih _ h2

/-- If no quadrature point in the remaining list coincides with the
collocation point, the quadrature fold succeeds and accumulates every
point's cell in order. -/
theorem sing2dFold_ok (p : Sing2dP) (l : List Nat) (acc : List Event)
    (h : ∀ i ∈ l, ¬(|Xdiff p i| = 0 ∧ Zdiff p i = 0)) :
    l.foldlM (sing2dStep p) acc =
      Except.ok (acc ++ l.flatMap fun i =>
        sing2dCellAt p i |Xdiff p i| (Zdiff p i) (sign (Xdiff p i))) := by
  induction l generalizing acc with
  | nil => rw [List.foldlM_nil, List.flatMap_nil, List.append_nil]; rfl
  | cons x xs ih =>
    rw [List.foldlM_cons]
    have hx := h x (List.mem_cons_self x xs)
    have hstep : sing2dStep p acc x =
        Except.ok (acc ++ sing2dCellAt p x |Xdiff p x| (Zdiff p x) (sign (Xdiff p x))) := by
      simp only [sing2dStep]
      rw [if_neg hx]
    rw [hstep]
    show List.foldlM (sing2dStep p)
        (acc ++ sing2dCellAt p x |Xdiff p x| (Zdiff p x) (sign (Xdiff p x))) xs = _
    rw [ih _ fun i hi => h i (List.mem_cons_of_mem x hi)]
    rw [List.flatMap_cons, List.append_assoc]

/-- The validation fold of one grid succeeds exactly when every listed
consecutive pair is increasing. -/
theorem monoFold_ok_iff (err : String) (a : Nat → ℚ) (l : List Nat) :
    (l.foldlM (fun _ i => if ¬ a (i - 1) < a i then Except.error err else Except.ok ()) ()
        = Except.ok ())
      ↔ ∀ i ∈ l, a (i - 1) < a i := by
  induction l with
  | nil =>
    rw [List.foldlM_nil]
    exact iff_of_true rfl (by simp)
  | cons x xs ih =>
    rw [List.foldlM_cons]
    by_cases hx : a (x - 1) < a x
    · rw [if_neg (not_not_intro hx)]
      show (List.foldlM (fun _ i => if ¬ a (i - 1) < a i then Except.error err
          else Except.ok ()) () xs = Except.ok ()) ↔ _
      rw [ih]
      simp [List.forall_mem_cons, hx]
    · rw [if_pos hx]
      constructor
      · intro hcontra
        have h3 : (Except.error err : Except String Unit) = Except.ok () := hcontra
        exact Except.noConfusion h3
      · intro hall
        exact absurd (hall x (List.mem_cons_self x xs)) hx

/-- The validation fold of one grid aborts with the grid's error message as
soon as one listed consecutive pair fails to increase. -/
theorem monoFold_error (err : String) (a : Nat → ℚ) (l : List Nat)
    (h : ∃ i ∈ l, ¬ a (i - 1) < a i) :
    l.foldlM (fun _ i => if ¬ a (i - 1) < a i then Except.error err else Except.ok ()) ()
      = Except.error err := by
  induction l with
  | nil => simp at h
  | cons x xs ih =>
    rw [List.foldlM_cons]
    by_cases hx : a (x - 1) < a x
    · rw [if_neg (not_not_intro hx)]
      show List.foldlM _ () xs = _
      refine ih ?_
      rcases h with ⟨i, hi, hbad⟩
      rcases List.mem_cons.mp hi with rfl | hmem
      · exact absurd hx hbad
      · exact ⟨i, hmem, hbad⟩
    · rw [if_pos hx]
      rfl

/-- `monoCheck` succeeds exactly on strictly increasing grids. -/
theorem monoCheck_ok_iff (err : String) (n : Nat) (a : Nat → ℚ) :
    monoCheck err n a = Except.ok () ↔ strictlyInc n a := by
  unfold monoCheck
  rw [monoFold_ok_iff]
  constructor
  · intro h i h1 h2
    exact h i (List.mem_range'.mpr ⟨i - 1, by omega, by omega⟩)
  · intro h i hi
    obtain ⟨k, hk, rfl⟩ := List.mem_range'.mp hi
    exact h (1 + 1 * k) (by omega) (by omega)

/-- Reduction of `Except` bind on a success value. -/
theorem except_bind_ok {E A B : Type} (a : A) (k : A → Except E B) :
    (Except.ok a >>= k) = k a := rfl

/-- Reduction of `Except` bind on an aborted computation. -/
theorem except_bind_error {E A B : Type} (e : E) (k : A → Except E B) :
    ((Except.error e : Except E A) >>= k) = Except.error e := rfl

/-- `monoCheck` aborts with its error message on any grid that is not
strictly increasing. -/
theorem monoCheck_error (err : String) (n : Nat) (a : Nat → ℚ)
    (h : ¬ strictlyInc n a) : monoCheck err n a = Except.error err := by
  unfold monoCheck
  apply monoFold_error
  unfold strictlyInc at h
  push_neg at h
  obtain ⟨i, h1, h2, hbad⟩ := h
  exact ⟨i, List.mem_range'.mpr ⟨i - 1, by omega, by omega⟩, not_lt.mpr hbad⟩

/-- Every event of a dense-branch cell targets either the ordinary
`(row-block of the collocation point, column-block of the element
collocation point)` entry or the diagonal `(row-block, row-block)` entry,
at flat offset `nDof² · iGrSet + nDof · col + row`. -/
theorem denseCell_idx (p : DiagP) (iColl iXi iEltColl iGrSet : Nat) (e : Event)
    (he : e ∈ denseCell p iColl iXi iEltColl iGrSet) :
    ∃ i j, i < 3 ∧ j < 3 ∧
      (e.idx = ((p.nDof * p.nDof * iGrSet + p.nDof * (3 * p.EltCollIndex iEltColl + j)
          + (3 * iColl + i) : Nat) : Int) ∨
       e.idx = ((p.nDof * p.nDof * iGrSet + p.nDof * (3 * iColl + j)
          + (3 * iColl + i) : Nat) : Int)) := by
  simp only [denseCell] at he
  rcases List.mem_append.mp he with h | h
  · rcases List.mem_append.mp h with h | h
    · obtain ⟨i, j, hi, hj, rfl⟩ := mem_block3x3 h
      exact ⟨i, j, hi, hj, Or.inl rfl⟩
    · obtain ⟨i, j, hi, hj, rfl⟩ := mem_block3x3 (mem_of_mem_ite_nil h)
      exact ⟨i, j, hi, hj, Or.inl rfl⟩
  · have h := mem_of_mem_ite_nil h
    rcases List.mem_append.mp h with h | h
    · rcases List.mem_append.mp h with h | h
      · rcases List.mem_append.mp h with h | h
        · obtain ⟨i, j, hi, hj, rfl⟩ := mem_block3x3 h
          exact ⟨i, j, hi, hj, Or.inl rfl⟩
        · obtain ⟨i, j, hi, hj, rfl⟩ := mem_block3x3 (mem_of_mem_ite_nil h)
          exact ⟨i, j, hi, hj, Or.inl rfl⟩
      · obtain ⟨i, j, hi, hj, rfl⟩ := mem_block3x3 h
        exact ⟨i, j, hi, hj, Or.inr rfl⟩
    · obtain ⟨i, j, hi, hj, rfl⟩ := mem_block3x3 (mem_of_mem_ite_nil h)
      exact ⟨i, j, hi, hj, Or.inr rfl⟩

/-- The dense-branch cell contains the real diagonal T0-subtraction event
for every component pair `(i, j)` whenever traction output is requested. -/
theorem denseCell_T0Re_mem (p : DiagP) (iColl iXi iEltColl iGrSet i j : Nat)
    (hT : p.TmatOut = true) (hi : i < 3) (hj : j < 3) :
    (⟨Buf.TRe, ((p.nDof * p.nDof * iGrSet + p.nDof * (3 * iColl + j)
        + (3 * iColl + i) : Nat) : Int),
      -(p.H iXi * p.M (p.nEltCollE * iXi + iEltColl) * p.Jac iXi *
        p.TXi0Re iColl iXi (9 * iGrSet + (3 * i + j)))⟩ : Event)
      ∈ denseCell p iColl iXi iEltColl iGrSet := by
  simp only [denseCell]
  apply List.mem_append_right
  rw [if_pos hT]
  apply List.mem_append_left
  apply List.mem_append_right
  simp only [block3x3]
  refine List.mem_flatMap.mpr ⟨i, List.mem_range.mpr hi, ?_⟩
  exact List.mem_map.mpr ⟨j, List.mem_range.mpr hj, rfl⟩

/-- The dense-branch cell contains the imaginary diagonal T0-subtraction
event for every component pair `(i, j)` whenever traction output is
requested and the traction kernel is complex. -/
theorem denseCell_T0Im_mem (p : DiagP) (iColl iXi iEltColl iGrSet i j : Nat)
    (hT : p.TmatOut = true) (htg : p.tgCmplx = true) (hi : i < 3) (hj : j < 3) :
    (⟨Buf.TIm, ((p.nDof * p.nDof * iGrSet + p.nDof * (3 * iColl + j)
        + (3 * iColl + i) : Nat) : Int),
      -(p.H iXi * p.M (p.nEltCollE * iXi + iEltColl) * p.Jac iXi *
        p.TXi0Im iColl iXi (9 * iGrSet + (3 * i + j)))⟩ : Event)
      ∈ denseCell p iColl iXi iEltColl iGrSet := by
  simp only [denseCell]
  apply List.mem_append_right
  rw [if_pos hT]
  apply List.mem_append_right
  rw [if_pos htg]
  simp only [block3x3]
  refine List.mem_flatMap.mpr ⟨i, List.mem_range.mpr hi, ?_⟩
  exact List.mem_map.mpr ⟨j, List.mem_range.mpr hj, rfl⟩

/-- Any event of a dense-branch cell with in-bounds loop indices occurs in
the dense event stream. -/
theorem mem_denseEvents_intro (p : DiagP) (iColl iXi iEltColl iGrSet : Nat) (e : Event)
    (hc : iColl < p.nColl) (hreg : p.RegularColl iColl = 1) (hx : iXi < p.nXiE)
    (hec : iEltColl < p.nEltCollE) (hg : iGrSet < p.nGrSet)
    (he : e ∈ denseCell p iColl iXi iEltColl iGrSet) : e ∈ denseEvents p := by
  unfold denseEvents
  refine List.mem_flatMap.mpr ⟨iColl, List.mem_range.mpr hc, ?_⟩
  rw [if_pos hreg]
  refine List.mem_flatMap.mpr ⟨iXi, List.mem_range.mpr hx, ?_⟩
  refine List.mem_flatMap.mpr ⟨iEltColl, List.mem_range.mpr hec, ?_⟩
  exact List.mem_flatMap.mpr ⟨iGrSet, List.mem_range.mpr hg, he⟩

/-- Characterization of the events of a `blockdiag` subset cell: one
T0-subtraction per tensor component `k < 9` and Green-set, addressed
through `inddiag[9*iu+k]` without any sentinel check. -/
theorem blockdiagCell_elim (p : DiagP) (iu iXi iEltColl : Nat) (e : Event)
    (he : e ∈ blockdiagCell p iu iXi iEltColl) :
    ∃ iGrSet k, iGrSet < p.nGrSet ∧ k < 9 ∧
      e.idx = ((p.ms * p.ns * iGrSet : Nat) : Int) + p.inddiag (9 * iu + k) ∧
      ((e.buf = Buf.TRe ∧
        e.val = -(p.H iXi * p.M (p.nEltCollE * iXi + iEltColl) * p.Jac iXi *
          p.TXi0Re (p.uniquescolli iu) iXi (9 * iGrSet + k))) ∨
       (e.buf = Buf.TIm ∧ p.tgCmplx = true ∧
        e.val = -(p.H iXi * p.M (p.nEltCollE * iXi + iEltColl) * p.Jac iXi *
          p.TXi0Im (p.uniquescolli iu) iXi (9 * iGrSet + k)))) := by
  simp only [blockdiagCell] at he
  obtain ⟨iGrSet, hg, he⟩ := List.mem_flatMap.mp he
  rw [List.mem_range] at hg
  rcases List.mem_append.mp he with h | h
  · obtain ⟨k, hk, rfl⟩ := List.mem_map.mp h
    rw [List.mem_range] at hk
    exact ⟨iGrSet, k, hg, hk, rfl, Or.inl ⟨rfl, rfl⟩⟩
  · by_cases htg : p.tgCmplx = true
    · rw [if_pos htg] at h
      obtain ⟨k, hk, rfl⟩ := List.mem_map.mp h
      rw [List.mem_range] at hk
      exact ⟨iGrSet, k, hg, hk, rfl, Or.inr ⟨rfl, htg, rfl⟩⟩
    · rw [if_neg htg] at h
      simp at h

/-- Characterization of the events of a non-`blockdiag` subset cell: a
T0-subtraction per selected slot whose component indices come from
`scompi`/`scompj` — written only when the slot mapping differs from the
sentinel `-1`. -/
theorem nonBlockCell_elim (p : DiagP) (iu cumul iXi iEltColl : Nat) (e : Event)
    (he : e ∈ nonBlockCell p iu cumul iXi iEltColl) :
    ∃ iGrSet c q, iGrSet < p.nGrSet ∧ c = 3 * p.scompi q + p.scompj q ∧
      p.inddiag (9 * iu + c) ≠ -1 ∧
      e.idx = ((p.ms * p.ns * iGrSet : Nat) : Int) + p.inddiag (9 * iu + c) ∧
      ((e.buf = Buf.TRe ∧
        e.val = -(p.H iXi * p.M (p.nEltCollE * iXi + iEltColl) * p.Jac iXi *
          p.TXi0Re (p.uniquescolli iu) iXi (9 * iGrSet + c))) ∨
       (e.buf = Buf.TIm ∧ p.tgCmplx = true ∧
        e.val = -(p.H iXi * p.M (p.nEltCollE * iXi + iEltColl) * p.Jac iXi *
          p.TXi0Im (p.uniquescolli iu) iXi (9 * iGrSet + c)))) := by
  simp only [nonBlockCell] at he
  have he := mem_of_mem_ite_nil he
  obtain ⟨iind, hiind, he⟩ := List.mem_flatMap.mp he
  have he := mem_of_mem_ite_nil he
  obtain ⟨iGrSet, hg, he⟩ := List.mem_flatMap.mp he
  rw [List.mem_range] at hg
  by_cases hnd : p.inddiag (9 * iu + (3 * p.scompi (p.uniquescolliind (cumul + iind))
      + p.scompj (p.uniquescolliind (cumul + iind)))) ≠ -1
  · rw [if_pos hnd] at he
    rcases List.mem_cons.mp he with rfl | he
    · exact ⟨iGrSet, _, p.uniquescolliind (cumul + iind), hg, rfl, hnd, rfl, Or.inl ⟨rfl, rfl⟩⟩
    · by_cases htg : p.tgCmplx = true
      · rw [if_pos htg] at he
        rcases List.mem_cons.mp he with rfl | he
        · exact ⟨iGrSet, _, p.uniquescolliind (cumul + iind), hg, rfl, hnd, rfl,
            Or.inr ⟨rfl, htg, rfl⟩⟩
        · simp at he
      · rw [if_neg htg] at he
        simp at he
  · rw [if_neg hnd] at he
    simp at he

/-- Characterization of the events of the subset-selection branch of
`bemintreg3ddiag`: every write targets the traction buffers, at flat index
`ms·ns·iGrSet + inddiag[9*iu+c]`, with the T0 value of the collocation
point `uniquescolli[iu]` weighted by `H·M·Jac`; in the non-`blockdiag`
branch the slot mapping is checked against the sentinel, in the
`blockdiag` branch it is not. -/
theorem subsetEvents_elim (p : DiagP) (e : Event) (he : e ∈ subsetEvents p) :
    ∃ iu iXi iEltColl iGrSet c,
      iu < p.Nuniquescolli ∧ iXi < p.nXiE ∧ iEltColl < p.nEltCollE ∧ iGrSet < p.nGrSet ∧
      p.RegularColl (p.uniquescolli iu) = 1 ∧
      ((p.blockdiag iu = true ∧ c < 9) ∨
       (p.inddiag (9 * iu + c) ≠ -1 ∧ ∃ q, c = 3 * p.scompi q + p.scompj q)) ∧
      e.idx = ((p.ms * p.ns * iGrSet : Nat) : Int) + p.inddiag (9 * iu + c) ∧
      ((e.buf = Buf.TRe ∧
        e.val = -(p.H iXi * p.M (p.nEltCollE * iXi + iEltColl) * p.Jac iXi *
          p.TXi0Re (p.uniquescolli iu) iXi (9 * iGrSet + c))) ∨
       (e.buf = Buf.TIm ∧ p.tgCmplx = true ∧
        e.val = -(p.H iXi * p.M (p.nEltCollE * iXi + iEltColl) * p.Jac iXi *
          p.TXi0Im (p.uniquescolli iu) iXi (9 * iGrSet + c)))) := by
  simp only [subsetEvents] at he
  obtain ⟨iu, hiu, he⟩ := List.mem_flatMap.mp he
  rw [List.mem_range] at hiu
  by_cases hreg : p.RegularColl (p.uniquescolli iu) = 1
  · rw [if_pos hreg] at he
    obtain ⟨iXi, hx, he⟩ := List.mem_flatMap.mp he
    rw [List.mem_range] at hx
    obtain ⟨iEltColl, hec, he⟩ := List.mem_flatMap.mp he
    rw [List.mem_range] at hec
    by_cases hbd : p.blockdiag iu = true
    · rw [if_pos hbd] at he
      obtain ⟨iGrSet, k, hg, hk, hidx, hval⟩ := blockdiagCell_elim p iu iXi iEltColl e he
      exact ⟨iu, iXi, iEltColl, iGrSet, k, hiu, hx, hec, hg, hreg, Or.inl ⟨hbd, hk⟩, hidx, hval⟩
    · rw [if_neg hbd] at he
      obtain ⟨iGrSet, c, q, hg, hc, hnd, hidx, hval⟩ := nonBlockCell_elim p iu _ iXi iEltColl e he
      exact ⟨iu, iXi, iEltColl, iGrSet, c, hiu, hx, hec, hg, hreg, Or.inr ⟨hnd, q, hc⟩, hidx, hval⟩
  · rw [if_neg hreg] at he
    simp at he

/-- The three-grid validation of `IntegrateGreenUser` succeeds exactly when
`zs`, `r` and `z` are all strictly increasing. -/
theorem userGridChecks_ok_iff (nzs : Nat) (zs : Nat → ℚ) (nr : Nat) (r : Nat → ℚ)
    (nz : Nat) (z : Nat → ℚ) :
    userGridChecks nzs zs nr r nz z = Except.ok () ↔
      (strictlyInc nzs zs ∧ strictlyInc nr r ∧ strictlyInc nz z) := by
  unfold userGridChecks
  by_cases h1 : strictlyInc nzs zs
  · rw [show monoCheck "Input argument zs must be monotonically increasing." nzs zs
        = Except.ok () from (monoCheck_ok_iff _ _ _).mpr h1]
    rw [except_bind_ok]
    by_cases h2 : strictlyInc nr r
    · rw [show monoCheck "Input argument r must be monotonically increasing." nr r
          = Except.ok () from (monoCheck_ok_iff _ _ _).mpr h2]
      rw [except_bind_ok]
      rw [monoCheck_ok_iff]
      simp [h1, h2]
    · rw [monoCheck_error _ _ _ h2, except_bind_error]
      exact iff_of_false (fun hc => Except.noConfusion hc) (fun hc => h2 hc.2.1)
  · rw [monoCheck_error _ _ _ h1, except_bind_error]
    exact iff_of_false (fun hc => Except.noConfusion hc) (fun hc => h1 hc.1)

/-- C2: during singular integration, a quadrature sample point that exactly
coincides with the collocation point (zero radial and zero vertical
offset) makes `bemintsing2d` raise the fatal degenerate-geometry error
before evaluating the kernel: the whole run aborts with the error and
produces no numeric contribution. -/
theorem C2_singular_zero_offset_fatal (p : Sing2dP)
    (h : ∃ iXi, iXi < sing2dNXi p ∧ |Xdiff p iXi| = 0 ∧ Zdiff p iXi = 0) :
    sing2dRun p = Except.error
      "An integration point coincides with the collocation point for singular integration." := by
  obtain ⟨i, hi, hbad⟩ := h
  exact sing2dFold_error p _ [] ⟨i, List.mem_range.mpr hi, hbad⟩

theorem C2_singular_zero_offset_fatal_witness :
    sing2dRun qEx = Except.error
      "An integration point coincides with the collocation point for singular integration." :=
  C2_singular_zero_offset_fatal qEx
    ⟨0, by norm_num [sing2dNXi, qEx], by norm_num [Xdiff, Zdiff, xiCartX, xiCartZ, qEx]⟩

/-- C7: for a singular 2D pair, the integrator runs over the singular
quadrature rule's `nEltDivSing * nGaussSing` sample points, and at every
sample point it hands the kernel evaluator the signed radial coordinate —
the radial offset `|Δx|` together with `sign Δx`, recomputed from the
geometry at that point (so that `sign Δx · |Δx| = Δx` and `|Δx| ≥ 0`). -/
theorem C7_singular_rule_signed_radial (p : Sing2dP)
    (h : ∀ iXi, iXi < sing2dNXi p → ¬(|Xdiff p iXi| = 0 ∧ Zdiff p iXi = 0)) :
    sing2dRun p = Except.ok
      ((List.range (p.nEltDivSing * p.nGaussSing)).flatMap fun iXi =>
        sing2dCellAt p iXi |Xdiff p iXi| (Zdiff p iXi) (sign (Xdiff p iXi))) ∧
    ∀ iXi : Nat, sign (Xdiff p iXi) * |Xdiff p iXi| = Xdiff p iXi ∧ 0 ≤ |Xdiff p iXi| := by
  constructor
  · have h2 := sing2dFold_ok p (List.range (sing2dNXi p)) []
      (fun i hi => h i (List.mem_range.mp hi))
    rw [List.nil_append] at h2
    exact h2
  · intro iXi
    exact ⟨sign_mul_abs _, abs_nonneg _⟩

theorem C7_singular_rule_signed_radial_witness :
    sing2dRun qExOff = Except.ok
      ((List.range (qExOff.nEltDivSing * qExOff.nGaussSing)).flatMap fun iXi =>
        sing2dCellAt qExOff iXi |Xdiff qExOff iXi| (Zdiff qExOff iXi) (sign (Xdiff qExOff iXi))) ∧
    ∀ iXi : Nat, sign (Xdiff qExOff iXi) * |Xdiff qExOff iXi| = Xdiff qExOff iXi ∧
      0 ≤ |Xdiff qExOff iXi| :=
  C7_singular_rule_signed_radial qExOff (by
    intro i hi
    have h1 : i = 0 := by
      have : sing2dNXi qExOff = 1 := rfl
      omega
    subst h1
    norm_num [Xdiff, Zdiff, xiCartX, xiCartZ, qExOff, qEx])

/-- C10: the `sign` helper maps an offset of exactly `0` to `+1` (and takes
no third value), so a quadrature point with zero horizontal offset but
nonzero vertical offset is evaluated on the positive branch of the
canonical frame — `bemintsing2d` proceeds with kernel arguments
`(0, Δz, +1)` instead of failing. -/
theorem C10_sign_zero_positive_branch :
    sign 0 = 1 ∧ (∀ q : ℚ, sign q = 1 ∨ sign q = -1) ∧
    ∀ (p : Sing2dP) (acc : List Event) (iXi : Nat),
      Xdiff p iXi = 0 → ¬ Zdiff p iXi = 0 →
      sing2dStep p acc iXi = Except.ok (acc ++ sing2dCellAt p iXi 0 (Zdiff p iXi) 1) := by
  refine ⟨by norm_num [sign], ?_, ?_⟩
  · intro q
    unfold sign
    split
    · exact Or.inl rfl
    · split
      · exact Or.inl rfl
      · exact Or.inr rfl
  · intro p acc iXi hX hZ
    simp only [sing2dStep]
    rw [hX]
    rw [if_neg (fun hc => hZ hc.2)]
    rw [abs_zero, show sign (0 : ℚ) = 1 by norm_num [sign]]

theorem C10_sign_zero_positive_branch_witness :
    sing2dStep qExZ [] 0 = Except.ok ([] ++ sing2dCellAt qExZ 0 0 (Zdiff qExZ 0) 1) :=
  C10_sign_zero_positive_branch.2.2 qExZ [] 0
    (by norm_num [Xdiff, xiCartX, qExZ, qEx])
    (by norm_num [Zdiff, xiCartZ, qExZ, qEx])

/-- C8: the U output is allocated complex exactly when the displacement
kernel is complex or the problem is periodic, and the T output complex
exactly when the traction kernel is complex or the problem is periodic
(`IntegrateGreenUser`); `IntegrateFsGreen3d` fixes both kernels complex, so
its outputs are always complex. -/
theorem C8_complex_storage_iff :
    (∀ ugCmplx probPeriodic : Bool,
      (userUAlloc ugCmplx probPeriodic = MxStorage.cmplx ↔
        (ugCmplx = true ∨ probPeriodic = true)) ∧
      (userUAlloc ugCmplx probPeriodic = MxStorage.real ↔
        ¬(ugCmplx = true ∨ probPeriodic = true))) ∧
    (∀ tgCmplx probPeriodic : Bool,
      (userTAlloc tgCmplx probPeriodic = MxStorage.cmplx ↔
        (tgCmplx = true ∨ probPeriodic = true)) ∧
      (userTAlloc tgCmplx probPeriodic = MxStorage.real ↔
        ¬(tgCmplx = true ∨ probPeriodic = true))) ∧
    (∀ probPeriodic : Bool,
      fsGreen3dUAlloc probPeriodic = MxStorage.cmplx ∧
      fsGreen3dTAlloc probPeriodic = MxStorage.cmplx) := by
  decide

/-- C5: the user-tabulated Green's function grids `zs`, `r`, `z` are each
validated to be strictly increasing at table-load time; if any of them is
not, the load aborts with a fatal error and produces no output shape. -/
theorem C5_user_grids_validated_at_load (nzs : Nat) (zs : Nat → ℚ) (nr : Nat) (r : Nat → ℚ)
    (nz : Nat) (z : Nat → ℚ) :
    (userGridChecks nzs zs nr r nz z = Except.ok () ↔
      (strictlyInc nzs zs ∧ strictlyInc nr r ∧ strictlyInc nz z)) ∧
    (¬(strictlyInc nzs zs ∧ strictlyInc nr r ∧ strictlyInc nz z) →
      ∀ (sIsNull : Bool) (nDof ms ns : Nat) (UmatOut : Bool), ∃ msg,
        integrateGreenUserLoad nzs zs nr r nz z sIsNull nDof ms ns UmatOut
          = Except.error msg) := by
  refine ⟨userGridChecks_ok_iff nzs zs nr r nz z, ?_⟩
  intro hbad sIsNull nDof ms ns UmatOut
  unfold integrateGreenUserLoad
  cases hres : userGridChecks nzs zs nr r nz z with
  | error msg =>
    exact ⟨msg, by rw [except_bind_error]⟩
  | ok u =>
    cases u
    exact absurd ((userGridChecks_ok_iff nzs zs nr r nz z).mp hres) hbad

theorem C5_user_grids_validated_at_load_witness :
    ∃ msg, integrateGreenUserLoad 2 (fun _ => 0) 1 (fun _ => 0) 1 (fun _ => 0)
      true 3 1 1 true = Except.error msg :=
  (C5_user_grids_validated_at_load 2 (fun _ => 0) 1 (fun _ => 0) 1 (fun _ => 0)).2
    (fun hc => absurd (hc.1 1 le_rfl one_lt_two) (lt_irrefl 0)) true 3 1 1 true

/-- C6: the output matrices get leading dimensions `nDof × nDof`
(`nDof = nColDof·nTotalColl`) when no selection subset is passed and
`ms × ns` when one is supplied, and every entry the dense integration path
addresses lies at the flat index `nRow·nCol·greenSetIndex + nRow·col + row`
(column-major; Green-set stride `nRow·nCol`, column stride `nRow`). -/
theorem C6_output_shape_and_flat_index (nColDof nTotalColl ms ns : Nat) (p : DiagP)
    (hDof : p.nDof = 3 * p.nColl) (hcoll : ∀ k, p.EltCollIndex k < p.nColl) :
    (fsGreenfMatDim true nColDof nTotalColl ms ns
        = (nColDof * nTotalColl, nColDof * nTotalColl) ∧
     fsGreenfMatDim false nColDof nTotalColl ms ns = (ms, ns)) ∧
    ∀ e ∈ denseEvents p, ∃ g c r, g < p.nGrSet ∧ c < p.nDof ∧ r < p.nDof ∧
      e.idx = ((specFlatIndex p.nDof p.nDof g c r : Nat) : Int) := by
  refine ⟨⟨rfl, rfl⟩, ?_⟩
  intro e he
  unfold denseEvents at he
  obtain ⟨iColl, hic, he⟩ := List.mem_flatMap.mp he
  rw [List.mem_range] at hic
  by_cases hreg : p.RegularColl iColl = 1
  · rw [if_pos hreg] at he
    obtain ⟨iXi, _, he⟩ := List.mem_flatMap.mp he
    obtain ⟨iEltColl, _, he⟩ := List.mem_flatMap.mp he
    obtain ⟨iGrSet, hg, he⟩ := List.mem_flatMap.mp he
    rw [List.mem_range] at hg
    obtain ⟨i, j, hi, hj, hidx⟩ := denseCell_idx p iColl iXi iEltColl iGrSet e he
    rcases hidx with hidx | hidx
    · have hE := hcoll iEltColl
      exact ⟨iGrSet, 3 * p.EltCollIndex iEltColl + j, 3 * iColl + i, hg,
        by omega, by omega, by rw [hidx]; rfl⟩
    · exact ⟨iGrSet, 3 * iColl + j, 3 * iColl + i, hg, by omega, by omega, by rw [hidx]; rfl⟩
  · rw [if_neg hreg] at he
    simp at he

theorem C6_output_shape_and_flat_index_witness :
    (fsGreenfMatDim true 3 1 1 1 = (3 * 1, 3 * 1) ∧ fsGreenfMatDim false 3 1 1 1 = (1, 1)) ∧
    ∀ e ∈ denseEvents pEx, ∃ g c r, g < pEx.nGrSet ∧ c < pEx.nDof ∧ r < pEx.nDof ∧
      e.idx = ((specFlatIndex pEx.nDof pEx.nDof g c r : Nat) : Int) :=
  C6_output_shape_and_flat_index 3 1 1 1 pEx rfl (fun _ => Nat.one_pos)

/-- C9: in subset-selection mode, `bemintreg3ddiag` only ever touches the
traction buffers: applying every event of the subset branch leaves the
displacement buffers `URe` and `UIm` completely unchanged, for every
parameter set and every initial buffer state. -/
theorem C9_subset_branch_preserves_U (p : DiagP) (b : Buffers) :
    applyEvents b (subsetEvents p) Buf.URe = b Buf.URe ∧
    applyEvents b (subsetEvents p) Buf.UIm = b Buf.UIm := by
  have hbuf : ∀ e ∈ subsetEvents p, e.buf = Buf.TRe ∨ e.buf = Buf.TIm := by
    intro e he
    obtain ⟨iu, iXi, iEltColl, iGrSet, c, _, _, _, _, _, _, _, hval⟩ :=
      subsetEvents_elim p e he
    rcases hval with ⟨hb, _⟩ | ⟨hb, _, _⟩
    · exact Or.inl hb
    · exact Or.inr hb
  constructor
  · apply applyEvents_eq_of_buf_notMem
    intro e he
    rcases hbuf e he with h | h <;> rw [h] <;> exact fun hc => Buf.noConfusion hc
  · apply applyEvents_eq_of_buf_notMem
    intro e he
    rcases hbuf e he with h | h <;> rw [h] <;> exact fun hc => Buf.noConfusion hc

/-- C4, counterexample: the claim asserts that no write through a `-1`
slot index ever occurs in either branch.  In the `blockdiag` branch the
nine tensor components are written through `inddiag` with no sentinel
check: with every slot mapping at `-1`, the routine still emits nine
traction writes, each addressed at `ms·ns·0 + (-1) = -1`. -/
theorem C4_blockdiag_writes_through_sentinel :
    subsetEvents pEx ≠ [] ∧
    ∀ e ∈ subsetEvents pEx, e.buf = Buf.TRe ∧ e.idx = -1 := by
  have h : subsetEvents pEx = List.replicate 9 ⟨Buf.TRe, -1, -1⟩ := by
    simp [subsetEvents, blockdiagCell, pEx, List.range_succ]
  rw [h]
  refine ⟨by simp, ?_⟩
  intro e he
  rw [List.eq_of_mem_replicate he]
  exact ⟨rfl, rfl⟩

/-- C4, amended: in the non-`blockdiag` branch, every target slot whose
`inddiag` mapping equals the sentinel `-1` is dropped without writing — on
any run where only the non-`blockdiag` branch is taken, every emitted
write goes through a slot whose mapping differs from `-1`.  (The
`blockdiag` branch applies `inddiag` unconditionally, with no sentinel
check.) -/
theorem C4_nonblockdiag_sentinel_guard (p : DiagP)
    (hbd : ∀ iu, p.blockdiag iu = false) :
    ∀ e ∈ subsetEvents p, ∃ iu c g, g < p.nGrSet ∧ p.inddiag (9 * iu + c) ≠ -1 ∧
      e.idx = ((p.ms * p.ns * g : Nat) : Int) + p.inddiag (9 * iu + c) := by
  intro e he
  obtain ⟨iu, iXi, iEltColl, iGrSet, c, hiu, hx, hec, hg, hreg, hbr, hidx, hval⟩ :=
    subsetEvents_elim p e he
  rcases hbr with ⟨hbd1, _⟩ | ⟨hnd, _⟩
  · rw [hbd iu] at hbd1
    exact Bool.noConfusion hbd1
  · exact ⟨iu, c, iGrSet, hg, hnd, hidx⟩

theorem C4_nonblockdiag_sentinel_guard_witness :
    ∃ iu c g, g < pExNB.nGrSet ∧ pExNB.inddiag (9 * iu + c) ≠ -1 ∧
      (Event.mk Buf.TRe 0 (-1)).idx
        = ((pExNB.ms * pExNB.ns * g : Nat) : Int) + pExNB.inddiag (9 * iu + c) :=
  C4_nonblockdiag_sentinel_guard pExNB (fun _ => rfl) (Event.mk Buf.TRe 0 (-1))
    (by simp [subsetEvents, nonBlockCell, pExNB, pEx, List.range_succ])

/-- C3: every per-term contribution the subset-selection
diagonal-regularization path writes into a present output slot equals the
contribution the dense path writes into the corresponding diagonal
`(row = 3·iColl+i, col = 3·iColl+j, Green-set)` entry of the full traction
matrix for the same collocation point, element shape function, quadrature
point and tensor component — and that dense write does occur in the dense
event stream. -/
theorem C3_subset_terms_match_dense (p : DiagP) (hT : p.TmatOut = true)
    (hu : ∀ iu, iu < p.Nuniquescolli → p.uniquescolli iu < p.nColl)
    (hs : ∀ q, p.scompi q < 3 ∧ p.scompj q < 3) :
    ∀ e ∈ subsetEvents p,
      ∃ iColl iXi iEltColl iGrSet i j,
        iColl < p.nColl ∧ iXi < p.nXiE ∧ iEltColl < p.nEltCollE ∧ iGrSet < p.nGrSet ∧
        i < 3 ∧ j < 3 ∧ p.RegularColl iColl = 1 ∧
        ((e.buf = Buf.TRe ∧
          e.val = -(p.H iXi * p.M (p.nEltCollE * iXi + iEltColl) * p.Jac iXi *
            p.TXi0Re iColl iXi (9 * iGrSet + (3 * i + j)))) ∨
         (e.buf = Buf.TIm ∧
          e.val = -(p.H iXi * p.M (p.nEltCollE * iXi + iEltColl) * p.Jac iXi *
            p.TXi0Im iColl iXi (9 * iGrSet + (3 * i + j))))) ∧
        (Event.mk e.buf ((p.nDof * p.nDof * iGrSet + p.nDof * (3 * iColl + j)
            + (3 * iColl + i) : Nat) : Int) e.val) ∈ denseEvents p := by
  intro e he
  obtain ⟨iu, iXi, iEltColl, iGrSet, c, hiu, hx, hec, hg, hreg, hbr, hidx, hval⟩ :=
    subsetEvents_elim p e he
  have hc9 : c < 9 := by
    rcases hbr with ⟨_, h9⟩ | ⟨_, q, hcq⟩
    · exact h9
    · have hq := hs q
      omega
  have hij : 3 * (c / 3) + c % 3 = c := Nat.div_add_mod c 3
  refine ⟨p.uniquescolli iu, iXi, iEltColl, iGrSet, c / 3, c % 3,
    hu iu hiu, hx, hec, hg, by omega, by omega, hreg, ?_, ?_⟩
  · rcases hval with ⟨hb, hv⟩ | ⟨hb, htg, hv⟩
    · refine Or.inl ⟨hb, ?_⟩
      rw [hv, hij]
    · refine Or.inr ⟨hb, ?_⟩
      rw [hv, hij]
  · rcases hval with ⟨hb, hv⟩ | ⟨hb, htg, hv⟩
    · rw [hb, hv]
      have hmem := denseCell_T0Re_mem p (p.uniquescolli iu) iXi iEltColl iGrSet
        (c / 3) (c % 3) hT (by omega) (by omega)
      rw [hij] at hmem
      exact mem_denseEvents_intro p _ iXi iEltColl iGrSet _
        (hu iu hiu) hreg hx hec hg hmem
    · rw [hb, hv]
      have hmem := denseCell_T0Im_mem p (p.uniquescolli iu) iXi iEltColl iGrSet
        (c / 3) (c % 3) hT htg (by omega) (by omega)
      rw [hij] at hmem
      exact mem_denseEvents_intro p _ iXi iEltColl iGrSet _
        (hu iu hiu) hreg hx hec hg hmem

theorem C3_subset_terms_match_dense_witness :
    ∃ iColl iXi iEltColl iGrSet i j,
      iColl < pEx.nColl ∧ iXi < pEx.nXiE ∧ iEltColl < pEx.nEltCollE ∧ iGrSet < pEx.nGrSet ∧
      i < 3 ∧ j < 3 ∧ pEx.RegularColl iColl = 1 ∧
      (((Event.mk Buf.TRe (-1) (-1)).buf = Buf.TRe ∧
        (Event.mk Buf.TRe (-1) (-1)).val
          = -(pEx.H iXi * pEx.M (pEx.nEltCollE * iXi + iEltColl) * pEx.Jac iXi *
            pEx.TXi0Re iColl iXi (9 * iGrSet + (3 * i + j)))) ∨
       ((Event.mk Buf.TRe (-1) (-1)).buf = Buf.TIm ∧
        (Event.mk Buf.TRe (-1) (-1)).val
          = -(pEx.H iXi * pEx.M (pEx.nEltCollE * iXi + iEltColl) * pEx.Jac iXi *
            pEx.TXi0Im iColl iXi (9 * iGrSet + (3 * i + j))))) ∧
      (Event.mk (Event.mk Buf.TRe (-1) (-1)).buf
          ((pEx.nDof * pEx.nDof * iGrSet + pEx.nDof * (3 * iColl + j)
            + (3 * iColl + i) : Nat) : Int) (Event.mk Buf.TRe (-1) (-1)).val)
        ∈ denseEvents pEx :=
  C3_subset_terms_match_dense pEx rfl (fun _ _ => Nat.one_pos)
    (fun _ => ⟨by norm_num [pEx], by norm_num [pEx]⟩) (Event.mk Buf.TRe (-1) (-1))
    (by simp [subsetEvents, blockdiagCell, pEx, List.range_succ])

/-- C1: for every (collocation point, element) pair on the dense
regular/diagonal path with traction output requested, the event stream is
exactly the §4.5 specification: once per (quadrature point, element
collocation shape function, Green-set), the U and T kernels are
accumulated at `(row, col)` and the static self-offset kernel T0 is
subtracted from the diagonal block `(row, row)`, all weighted by the same
`quadratureWeight × shapeValue × Jacobian`. -/
theorem C1_dense_diag_regularization (p : DiagP) (hT : p.TmatOut = true) :
    denseEvents p =
      (List.range p.nColl).flatMap fun iColl =>
        if p.RegularColl iColl = 1 then
          (List.range p.nXiE).flatMap fun iXi =>
            (List.range p.nEltCollE).flatMap fun iEltColl =>
              (List.range p.nGrSet).flatMap fun iGrSet =>
                specRegularCellT p iColl iXi iEltColl iGrSet
        else [] := by
  unfold denseEvents
  refine List.flatMap_congr fun iColl _ => ?_
  by_cases hreg : p.RegularColl iColl = 1
  · rw [if_pos hreg, if_pos hreg]
    refine List.flatMap_congr fun iXi _ => ?_
    refine List.flatMap_congr fun iEltColl _ => ?_
    refine List.flatMap_congr fun iGrSet _ => ?_
    simp only [denseCell, specRegularCellT, specFlatIndex, hT, eq_self_iff_true,
      if_true, block3x3_eq_map9, Nat.div_add_mod]
  · rw [if_neg hreg, if_neg hreg]

theorem C1_dense_diag_regularization_witness :
    denseEvents pEx =
      (List.range pEx.nColl).flatMap fun iColl =>
        if pEx.RegularColl iColl = 1 then
          (List.range pEx.nXiE).flatMap fun iXi =>
            (List.range pEx.nEltCollE).flatMap fun iEltColl =>
              (List.range pEx.nGrSet).flatMap fun iGrSet =>
                specRegularCellT pEx iColl iXi iEltColl iGrSet
        else [] :=
  C1_dense_diag_regularization pEx rfl

end Hbemfun
